import Mathlib

/-!
Shallow embedding of `src/consistent-hash.js`, a consistent-hashing ring.

Modelling conventions:
* JavaScript bitwise operators convert through 32-bit words; we model the
  numbers as `Nat` with an explicit `% 2 ^ 32` at each such conversion.
* A JavaScript object used as a map is a function `Option Int → Option Node`;
  the key `none` stands for the string key "undefined" (produced by reading
  past the end of an array), and a missing entry reads as `none`.
* The allocator's sparse `points` array is a function `Nat → Option Int`.
* `Math.random() * range >>> 0` is modelled as an input stream
  `draws : Nat → Nat` consumed at a cursor position that the operations
  thread through.
* Loops are structurally recursive functions; where the source loop is a
  `while`, a fuel argument bounds the iteration count and is instantiated
  large enough (each lemma states the sufficiency hypothesis it needs).
-/

namespace CHashModel

/-- JS object assignment `m[q] = v` for the control-point-to-node map. -/
def jsMapSet {Node : Type} (m : Option Int → Option Node) (q : Option Int) (v : Node) :
    Option Int → Option Node :=
  fun q' => if q' = q then some v else m q'

/-- JS sparse-array assignment `a[i] = v` for the allocator's `points` array. -/
def jsArrSet (a : Nat → Option Int) (i : Nat) (v : Int) : Nat → Option Int :=
  fun j => if j = i then some v else a j

/-- Translation of the loop body of `_hash` (the 24-bit PJW string hash,
source lines 179-206): for each character code `c`, `h = (h << 4) + c`;
`g = h & 0xf000000`; if `g` is nonzero then `h ^= g; h ^= g >>> 24`.  The
input is the string's sequence of UTF-16 code units. -/
def hashStep (h c : Nat) : Nat :=
  let h1 := (h <<< 4) % 2 ^ 32 + c
  let g := (h1 % 2 ^ 32) &&& 0xf000000
  if g ≠ 0 then ((h1 % 2 ^ 32) ^^^ g) ^^^ (g >>> 24) else h1

/-- The fold of `hashStep` over the code units, starting from 0. -/
def _hash (s : List Nat) : Nat := s.foldl hashStep 0

/-- Translation of the bisection loop of `_absearch` (source lines 241-246),
which runs while `j - i > 25`; `mid = (i + j) >>> 1`; `if (array[mid] < key)
i = mid + 1; else j = mid`.  `fuel` bounds the iteration count; any
`fuel ≥ j - i` is enough for the loop to reach its exit condition. -/
def bsLoop (a : List Int) (key : Int) : Nat → Int → Int → Int
  | 0, i, _ => i
  | fuel + 1, i, j =>
    if j - i > 25 then
      if a.getD ((i + j) / 2).toNat 0 < key then bsLoop a key fuel ((i + j) / 2 + 1) j
      else bsLoop a key fuel i ((i + j) / 2)
    else i

/-- Translation of the trailing linear scan of `_absearch` (source line 248):
`for ( ; i<len; i++) if (array[i] >= key) return i`, on the suffix of the
array starting at absolute index `i0`. -/
def linScan (key : Int) : List Int → Nat → Option Nat
  | [], _ => none
  | x :: xs, i => if key ≤ x then some i else linScan key xs (i + 1)

/-- Translation of `_absearch(array, key)` (source lines 239-250): bisect to a
25-element window, then scan linearly; the fallback is `0` for a non-empty
array (ring wrap-around) and `-1` for an empty one. -/
def _absearch (array : List Int) (key : Int) : Int :=
  let i := (bsLoop array key array.length 0 ((array.length : Int) - 1)).toNat
  match linScan key (array.drop i) i with
  | some ix => (ix : Int)
  | none => if array.length = 0 then -1 else 0

/-- Translation of `_buildKeys` (source lines 253-265): flatten `_nodeKeys`
and sort ascending, keeping duplicates.  On integers any comparison sort
agrees with any other, so an insertion sort stands in for `Array.sort`. -/
def _buildKeys (nodeKeys : List (List Int)) : List Int :=
  (nodeKeys.flatten).insertionSort (· ≤ ·)

/-- Translation of the `do ... while` redraw loop inside `_makeControlPoints`
(source lines 98-100).  The JS condition is
`(this._keyMap[key] !== undefined || points[key] !== undefined) &&
++attemptCount < 10`; `budget` stands for `10 - attemptCount`, so the
increment-and-compare becomes: redraw while the budget exceeds 1.  Returns
the accepted key, the next stream position, and the remaining budget. -/
def drawOne {Node : Type} (keyMap : Option Int → Option Node) (arr : Nat → Option Int)
    (draws : Nat → Nat) : Nat → Nat → Nat × Nat × Nat
  | b + 2, pos =>
    let key := draws pos
    if (keyMap (some (key : Int))).isSome || (arr key).isSome then
      drawOne keyMap arr draws (b + 1) (pos + 1)
    else (key, pos + 1, b + 2)
  | 1, pos =>
    let key := draws pos
    if (keyMap (some (key : Int))).isSome || (arr key).isSome then (key, pos + 1, 0)
    else (key, pos + 1, 1)
  | 0, pos =>
    let key := draws pos
    (key, pos + 1, 0)

/-- Translation of the `for (i=0; i<n; i++)` loop of `_makeControlPoints`
(source lines 96-104): `k` points remain to draw, slot `i` is filled next;
the shared budget and the stream cursor are threaded through. -/
def mcpGo {Node : Type} (keyMap : Option Int → Option Node) (draws : Nat → Nat) :
    Nat → Nat → (Nat → Option Int) → Nat → Nat → (Nat → Option Int) × Nat
  | 0, _, arr, _, pos => (arr, pos)
  | k + 1, i, arr, budget, pos =>
    let r := drawOne keyMap arr draws budget pos
    mcpGo keyMap draws k (i + 1) (jsArrSet arr i (r.1 : Int)) r.2.2 r.2.1

/-- Translation of `_makeControlPoints(n)` (source lines 92-106), the control
point allocator, with the successive `Math.random() * range >>> 0` values
modelled as the stream `draws`; returns the `n` allocated points and the new
stream position. -/
def _makeControlPoints {Node : Type} (keyMap : Option Int → Option Node) (n : Nat)
    (draws : Nat → Nat) (pos : Nat) : List Int × Nat :=
  let r := mcpGo keyMap draws n 0 (fun _ => none) 10 pos
  ((List.range n).map (fun j => (r.1 j).getD 0), r.2)

/-- Translation of `_copy` (source lines 78-90) on an array: an element-wise
copy, which is the identity in a pure model (aliasing is unobservable). -/
def _copy (o : List Int) : List Int := o

/-- The ring state: the constructor fields of `ConsistentHash`
(source lines 15-24 and the prototype defaults, lines 42-50). -/
structure CHash (Node : Type) where
  _nodes : List Node
  _nodeKeys : List (List Int)
  _keyMap : Option Int → Option Node
  _keys : Option (List Int)
  nodeCount : Int
  keyCount : Int
  _range : Nat

/-- Translation of `new ConsistentHash(options)` (source lines 15-24):
`_range` defaults to 1009 and is overridden only by a truthy (nonzero)
`options.range`. -/
def CHash.init (Node : Type) (range : Option Nat) : CHash Node :=
  { _nodes := [], _nodeKeys := [], _keyMap := fun _ => none, _keys := none,
    nodeCount := 0, keyCount := 0,
    _range := match range with
      | some r => if r = 0 then 1009 else r
      | none => 1009 }

/-- Translation of the map-update loop of `add` (source line 63):
`for (i=0; i<n; i++) this._keyMap[points[i]] = node`.  Note that it runs over
`n`, not over `points.length`; reading `points[i]` past the end yields the
`undefined` key, modelled as `none`. -/
def addMapWrites {Node : Type} (m : Option Int → Option Node) (node : Node)
    (ps : List Int) (n : Nat) : Option Int → Option Node :=
  (List.range n).foldl (fun acc i => jsMapSet acc ps[i]? node) m

/-- Translation of `add(node, n, points)` (source lines 55-68): `n = n || 1`;
an explicit `points` array is copied and used as the registration, otherwise
`n` points are allocated; the node and its point list are appended to the
parallel lists, the map-update loop runs over `n` entries, the sorted cache
is invalidated, and the counters grow by `n` and by 1. -/
def CHash.add {Node : Type} (s : CHash Node) (node : Node) (n : Nat)
    (points : Option (List Int)) (draws : Nat → Nat) (pos : Nat) :
    CHash Node × Nat :=
  let n' := if n = 0 then 1 else n
  let pr : List Int × Nat := match points with
    | some arr => (_copy arr, pos)
    | none => _makeControlPoints s._keyMap n' draws pos
  ({ s with
      _nodes := s._nodes ++ [node],
      _nodeKeys := s._nodeKeys ++ [pr.1],
      _keyMap := addMapWrites s._keyMap node pr.1 n',
      _keys := none,
      keyCount := s.keyCount + (n' : Int),
      nodeCount := s.nodeCount + 1 }, pr.2)

/-- Translation of the JS swap-with-last-and-shrink idiom used by `remove`
(source lines 118-121): `l[ix] = l[l.length - 1]; l.length -= 1`. -/
def swapRemove {α : Type} (l : List α) (ix : Nat) : List α :=
  match l.getLast? with
  | some z => (l.set ix z).dropLast
  | none => l

/-- Translation of the `while ((ix = this._nodes.indexOf(node)) >= 0)` loop of
`remove` (source lines 116-125).  The tuple carries
(nodes, nodeKeys, sorted cache, keyCount, nodeCount); each iteration removes
the first matching registration from both parallel lists, clears the cache
and decrements the counters.  Any `fuel ≥ nodes.length` runs the loop to
completion, since each iteration shortens the list by one. -/
def removeLoop {Node : Type} [DecidableEq Node] (node : Node) :
    Nat → List Node × List (List Int) × Option (List Int) × Int × Int →
    List Node × List (List Int) × Option (List Int) × Int × Int
  | 0, t => t
  | fuel + 1, t =>
    match t.1.findIdx? (fun x => decide (x = node)) with
    | none => t
    | some ix =>
      removeLoop node fuel
        (swapRemove t.1 ix, swapRemove t.2.1 ix, none,
         t.2.2.2.1 - ((t.2.1.getD ix []).length : Int), t.2.2.2.2 - 1)

/-- Translation of `remove(node)` (source lines 111-127). -/
def CHash.remove {Node : Type} [DecidableEq Node] (s : CHash Node) (node : Node) :
    CHash Node :=
  let t := removeLoop node s._nodes.length
    (s._nodes, s._nodeKeys, s._keys, s.keyCount, s.nodeCount)
  { s with _nodes := t.1, _nodeKeys := t.2.1, _keys := t.2.2.1,
           keyCount := t.2.2.2.1, nodeCount := t.2.2.2.2 }

/-- Translation of `get(name)` (source lines 132-152): rebuild the sorted
cache if absent, return `null` when `keyCount` is 0, otherwise hash the name,
reduce it modulo `_range`, binary-search the sorted points, and look the
found point up in `_keyMap` (a `-1` search result reads the `undefined`
slot).  Returns the result together with the state carrying the cache. -/
def CHash.get {Node : Type} (s : CHash Node) (name : List Nat) :
    Option Node × CHash Node :=
  let keys := match s._keys with
    | some ks => ks
    | none => _buildKeys s._nodeKeys
  let s' := { s with _keys := some keys }
  if s.keyCount = 0 then (none, s')
  else
    let h : Nat := _hash name % s._range
    let idx : Int := _absearch keys (h : Int)
    (s._keyMap (if idx < 0 then none else keys[idx.toNat]?), s')

/-- One invocation of a public operation of the ring. -/
inductive Op (Node : Type) where
  | add (node : Node) (n : Nat) (points : Option (List Int))
  | remove (node : Node)
  | get (name : List Nat)

/-- Apply one public operation, threading the random-stream cursor. -/
def step {Node : Type} [DecidableEq Node] (draws : Nat → Nat)
    (t : CHash Node × Nat) : Op Node → CHash Node × Nat
  | .add node n points => t.1.add node n points draws t.2
  | .remove node => (t.1.remove node, t.2)
  | .get name => ((t.1.get name).2, t.2)

/-- Run a sequence of public operations from a freshly constructed ring. -/
def run {Node : Type} [DecidableEq Node] (range : Option Nat)
    (draws : Nat → Nat) (ops : List (Op Node)) : CHash Node × Nat :=
  ops.foldl (step draws) (CHash.init Node range, 0)

/-- Holds when every `add` that supplies an explicit point list passes a
weight equal to the list's length (with `n = 0` counting as the default 1). -/
def wfOp {Node : Type} : Op Node → Bool
  | .add _ n (some ps) => (if n = 0 then 1 else n) == ps.length
  | _ => true

/-- All operations of the sequence are well-formed in the sense of `wfOp`. -/
def wfOps {Node : Type} (ops : List (Op Node)) : Bool := ops.all wfOp

/-! ### Specification-side definitions -/

/-- One step of the hash scheme as the specification words it: shift the
accumulator left 4 bits and add the character code; when the top 4 bits of
the 28-bit working word (bits 24-27) are set, xor them out of the
accumulator and xor the same value shifted right by 24 into the low byte.
Arithmetic is on 32-bit machine words, written with explicit `/`, `%`, `*`
instead of the source's bit masks. -/
def hashClaimStep (h c : Nat) : Nat :=
  let acc := (h <<< 4) % 2 ^ 32 + c
  let top4 := acc % 2 ^ 32 / 2 ^ 24 % 16 * 2 ^ 24
  if top4 ≠ 0 then ((acc % 2 ^ 32) ^^^ top4) ^^^ (top4 / 2 ^ 24) else acc

/-- The hash scheme of the specification, folded over the code-unit list. -/
def hashClaimGo (h : Nat) : List Nat → Nat
  | [] => h
  | c :: cs => hashClaimGo (hashClaimStep h c) cs

/-- The specification's rolling hash: process the code units in order
starting from 0. -/
def hashClaim (s : List Nat) : Nat := hashClaimGo 0 s

/-- The redraw loop as claim C3 words it: reject a draw that is already a key
of the global map or was already chosen earlier in this same batch, with a
budget of 10 attempts for this point alone; when the budget is exhausted the
colliding value is accepted. -/
def claimDrawOne {Node : Type} (keyMap : Option Int → Option Node) (chosen : List Int)
    (draws : Nat → Nat) : Nat → Nat → Int × Nat
  | b + 2, pos =>
    let key : Int := (draws pos : Int)
    if (keyMap (some key)).isSome || chosen.contains key then
      claimDrawOne keyMap chosen draws (b + 1) (pos + 1)
    else (key, pos + 1)
  | _, pos => ((draws pos : Int), pos + 1)

/-- The allocation batch as claim C3 words it: each point gets its own
budget of 10 attempts, and the membership test is against the values chosen
earlier in the batch. -/
def claimAllocGo {Node : Type} (keyMap : Option Int → Option Node) (draws : Nat → Nat) :
    Nat → List Int → Nat → List Int × Nat
  | 0, chosen, pos => (chosen, pos)
  | k + 1, chosen, pos =>
    let r := claimDrawOne keyMap chosen draws 10 pos
    claimAllocGo keyMap draws k (chosen ++ [r.1]) r.2

/-- The allocator claim C3 describes: batch-membership collision test and a
per-point retry budget. -/
def claimAlloc {Node : Type} (keyMap : Option Int → Option Node) (n : Nat)
    (draws : Nat → Nat) (pos : Nat) : List Int × Nat :=
  claimAllocGo keyMap draws n [] pos

/-- The redraw loop as the amended claim C3 describes it: a draw is rejected
when it is a key of the global map or is smaller than the number of points
already placed in this batch (which is what the source's `points[key]` slot
test amounts to, the filled slots being exactly `0 .. i-1`); the budget is
the one shared across the whole batch. -/
def amendedDrawOne {Node : Type} (keyMap : Option Int → Option Node) (placed : Nat)
    (draws : Nat → Nat) : Nat → Nat → Nat × Nat × Nat
  | b + 2, pos =>
    let key := draws pos
    if (keyMap (some (key : Int))).isSome || decide (key < placed) then
      amendedDrawOne keyMap placed draws (b + 1) (pos + 1)
    else (key, pos + 1, b + 2)
  | 1, pos =>
    let key := draws pos
    if (keyMap (some (key : Int))).isSome || decide (key < placed) then (key, pos + 1, 0)
    else (key, pos + 1, 1)
  | 0, pos =>
    let key := draws pos
    (key, pos + 1, 0)

/-- The allocation batch as the amended claim C3 describes it: the retry
budget (10 for the whole batch) is threaded from point to point, and the
accepted points are accumulated in order. -/
def amendedGo {Node : Type} (keyMap : Option Int → Option Node) (draws : Nat → Nat) :
    Nat → List Int → Nat → Nat → List Int × Nat
  | 0, acc, _, pos => (acc, pos)
  | k + 1, acc, budget, pos =>
    let r := amendedDrawOne keyMap acc.length draws budget pos
    amendedGo keyMap draws k (acc ++ [(r.1 : Int)]) r.2.2 r.2.1

/-- The allocator the amended claim C3 describes: filled-slot-count collision
test and one batch-wide retry budget of 10. -/
def amendedAlloc {Node : Type} (keyMap : Option Int → Option Node) (n : Nat)
    (draws : Nat → Nat) (pos : Nat) : List Int × Nat :=
  amendedGo keyMap draws n [] 10 pos

/-! ### Helper lemmas -/

/-- Pointwise reading of the `add` map-update loop: a key written by one of
the `n` iterations reads back as `node`, anything else is unchanged. -/
theorem addMapWrites_apply {Node : Type} (m : Option Int → Option Node) (node : Node)
    (ps : List Int) : ∀ (n : Nat) (q : Option Int),
    addMapWrites m node ps n q =
      if ∃ i, i < n ∧ ps[i]? = q then some node else m q := by
  intro n
  induction n with
  | zero => intro q; simp [addMapWrites]
  | succ n ih =>
    intro q
    have hsplit : addMapWrites m node ps (n + 1) =
        jsMapSet (addMapWrites m node ps n) ps[n]? node := by
      unfold addMapWrites
      rw [List.range_succ, List.foldl_append]
      rfl
    rw [hsplit]
    unfold jsMapSet
    rw [ih]
    by_cases hq : q = ps[n]?
    · simp only [if_pos hq]
      rw [if_pos ⟨n, Nat.lt_succ_self n, hq.symm⟩]
    · simp only [if_neg hq]
      by_cases hex : ∃ i, i < n ∧ ps[i]? = q
      · rw [if_pos hex]
        obtain ⟨i, hi, hiq⟩ := hex
        rw [if_pos ⟨i, Nat.lt_succ_of_lt hi, hiq⟩]
      · rw [if_neg hex, if_neg]
        rintro ⟨i, hi, hiq⟩
        rcases Nat.lt_succ_iff_lt_or_eq.mp hi with h | h
        · exact hex ⟨i, h, hiq⟩
        · exact hq (h ▸ hiq).symm

/-- The allocator always returns as many points as requested. -/
theorem makeControlPoints_length {Node : Type} (keyMap : Option Int → Option Node)
    (n : Nat) (draws : Nat → Nat) (pos : Nat) :
    (_makeControlPoints keyMap n draws pos).1.length = n := by
  simp [_makeControlPoints]

/-- Reading the 4 bits 24-27 out of a machine word: the source's
`x & 0xf000000` equals the arithmetic form used by the specification-side
hash. -/
theorem land_top4 (x : Nat) : x &&& 0xf000000 = x / 2 ^ 24 % 16 * 2 ^ 24 := by
  have h1 : x / 2 ^ 24 % 16 * 2 ^ 24 = (x >>> 24 &&& (2 ^ 4 - 1)) <<< 24 := by
    rw [Nat.and_pow_two_sub_one_eq_mod, Nat.shiftLeft_eq, Nat.shiftRight_eq_div_pow]
  have h2 : (0xf000000 : Nat) = (2 ^ 4 - 1) <<< 24 := by
    rw [Nat.shiftLeft_eq]; norm_num
  rw [h1, h2]
  apply Nat.eq_of_testBit_eq
  intro i
  simp only [Nat.testBit_land, Nat.testBit_shiftLeft, Nat.testBit_shiftRight]
  rcases Nat.lt_or_ge i 24 with h | h
  · simp [Nat.not_le.mpr h]
  · simp [h, Nat.add_sub_cancel' h, Bool.and_left_comm]

/-! ### Claim C9 -/

/-- Claim C9: `remove` never deletes entries from the point-to-node map: the
map (and the range) are exactly what they were before the call, so a removed
node's control-point entries survive as stale map entries. -/
theorem remove_preserves_keyMap {Node : Type} [DecidableEq Node]
    (s : CHash Node) (node : Node) :
    (s.remove node)._keyMap = s._keyMap ∧ (s.remove node)._range = s._range ∧
    ∀ p : Int, s._keyMap (some p) = some node →
      (s.remove node)._keyMap (some p) = some node :=
  ⟨rfl, rfl, fun _ h => h⟩

/-! ### Claim C10 -/

/-- Claim C10: `add(node, 0)` with no explicit points behaves identically to
`add(node, 1)`: the falsy weight defaults to 1, one control point is
allocated, `keyCount` grows by 1 and `nodeCount` by 1. -/
theorem add_weight_zero_defaults_to_one {Node : Type} (s : CHash Node) (node : Node)
    (draws : Nat → Nat) (pos : Nat) :
    s.add node 0 none draws pos = s.add node 1 none draws pos ∧
    (s.add node 0 none draws pos).1.keyCount = s.keyCount + 1 ∧
    (s.add node 0 none draws pos).1.nodeCount = s.nodeCount + 1 ∧
    (s.add node 0 none draws pos).1._nodes = s._nodes ++ [node] ∧
    ∃ ps, (s.add node 0 none draws pos).1._nodeKeys = s._nodeKeys ++ [ps] ∧
      ps.length = 1 := by
  refine ⟨rfl, by simp [CHash.add], by simp [CHash.add], by simp [CHash.add], ?_⟩
  exact ⟨(_makeControlPoints s._keyMap 1 draws pos).1, by simp [CHash.add],
    makeControlPoints_length s._keyMap 1 draws pos⟩

/-! ### Claim C2 -/

/-- Counterexample to claim C2: calling `add` with the explicit point list
`[3, 4]` and the default weight 1 appends the whole list as the
registration, but enters only the first point into the map and increments
`keyCount` by 1, not by the list's length 2. -/
theorem add_explicit_points_skips_map_entries :
    (((CHash.init String none).add "A" 1 (some [3, 4]) (fun _ => 0) 0).1._nodeKeys
        = [[3, 4]]) ∧
    ((CHash.init String none).add "A" 1 (some [3, 4]) (fun _ => 0) 0).1.keyCount = 1 ∧
    ((CHash.init String none).add "A" 1 (some [3, 4]) (fun _ => 0) 0).1._keyMap (some 4)
        = none := by
  refine ⟨by decide, by decide, by decide⟩

/-- Claim C2, amended: with an explicit point list, `add` appends the node
and the full (copied) list to the parallel lists and bumps `nodeCount`, but
the map-update loop and the `keyCount` increment run over the weight
`n' = (weight || 1)` rather than the list length: exactly the points at
indices below `n'` are entered into the map (an index past the end writes
the `undefined` key), and `keyCount` grows by `n'`.  The claim's behaviour
is obtained exactly when `n'` equals the list length. -/
theorem add_explicit_points_effect {Node : Type} (s : CHash Node) (node : Node)
    (w : Nat) (ps : List Int) (draws : Nat → Nat) (pos : Nat) :
    (s.add node w (some ps) draws pos).1._nodes = s._nodes ++ [node] ∧
    (s.add node w (some ps) draws pos).1._nodeKeys = s._nodeKeys ++ [ps] ∧
    (s.add node w (some ps) draws pos).1._keys = none ∧
    (s.add node w (some ps) draws pos).1.keyCount
        = s.keyCount + ((if w = 0 then 1 else w : Nat) : Int) ∧
    (s.add node w (some ps) draws pos).1.nodeCount = s.nodeCount + 1 ∧
    (s.add node w (some ps) draws pos).2 = pos ∧
    (∀ q : Option Int, (∃ i, i < (if w = 0 then 1 else w) ∧ ps[i]? = q) →
      (s.add node w (some ps) draws pos).1._keyMap q = some node) ∧
    (∀ q : Option Int, (∀ i, i < (if w = 0 then 1 else w) → ps[i]? ≠ q) →
      (s.add node w (some ps) draws pos).1._keyMap q = s._keyMap q) := by
  refine ⟨rfl, rfl, rfl, rfl, rfl, rfl, ?_, ?_⟩
  · intro q hq
    show addMapWrites s._keyMap node ps (if w = 0 then 1 else w) q = some node
    rw [addMapWrites_apply, if_pos hq]
  · intro q hq
    show addMapWrites s._keyMap node ps (if w = 0 then 1 else w) q = s._keyMap q
    rw [addMapWrites_apply, if_neg]
    rintro ⟨i, hi, hiq⟩
    exact hq i hi hiq

/-! ### Claim C3 -/

/-- Reading an optional list element succeeds exactly below the length. -/
theorem isSome_getElem_opt (l : List Int) (i : Nat) :
    l[i]?.isSome = decide (i < l.length) := by
  rcases Nat.lt_or_ge i l.length with h | h
  · simp [List.getElem?_eq_getElem h, h]
  · simp [List.getElem?_eq_none h, Nat.not_lt.mpr h]

/-- When the sparse batch array holds exactly the accumulated points in its
slots `0 .. acc.length - 1`, the source's redraw loop behaves like the
filled-slot-count loop of the amended description. -/
theorem drawOne_eq_amended {Node : Type} (keyMap : Option Int → Option Node)
    (arr : Nat → Option Int) (acc : List Int) (draws : Nat → Nat)
    (hinv : ∀ j, arr j = acc[j]?) : ∀ budget pos : Nat,
    drawOne keyMap arr draws budget pos
      = amendedDrawOne keyMap acc.length draws budget pos := by
  have hc : ∀ key : Nat, (arr key).isSome = decide (key < acc.length) := by
    intro key; rw [hinv key]; exact isSome_getElem_opt acc key
  intro budget
  induction budget with
  | zero => intro pos; rfl
  | succ n ih =>
    intro pos
    rcases n with _ | m
    · rw [drawOne, amendedDrawOne]
      simp only [hc]
    · rw [drawOne, amendedDrawOne]
      simp only [hc]
      split_ifs with h
      · exact ih (pos + 1)
      · rfl

/-- The batch loops of the source allocator and of the amended description
run in lockstep: same stream consumption, and the sparse array holds exactly
the accumulated points. -/
theorem mcpGo_eq_amendedGo {Node : Type} (keyMap : Option Int → Option Node)
    (draws : Nat → Nat) : ∀ (k : Nat) (arr : Nat → Option Int) (acc : List Int)
    (budget pos : Nat), (∀ j, arr j = acc[j]?) →
    (mcpGo keyMap draws k acc.length arr budget pos).2
        = (amendedGo keyMap draws k acc budget pos).2 ∧
    (∀ j, (mcpGo keyMap draws k acc.length arr budget pos).1 j
        = ((amendedGo keyMap draws k acc budget pos).1)[j]?) ∧
    (amendedGo keyMap draws k acc budget pos).1.length = acc.length + k := by
  intro k
  induction k with
  | zero => intro arr acc budget pos hinv; exact ⟨rfl, hinv, by simp [amendedGo]⟩
  | succ k ih =>
    intro arr acc budget pos hinv
    rw [mcpGo, amendedGo, drawOne_eq_amended keyMap arr acc draws hinv]
    have hinv' : ∀ j, jsArrSet arr acc.length
        (((amendedDrawOne keyMap acc.length draws budget pos).1 : Nat) : Int) j
        = (acc ++ [(((amendedDrawOne keyMap acc.length draws budget pos).1 : Nat) : Int)])[j]? := by
      intro j
      unfold jsArrSet
      by_cases hj : j = acc.length
      · subst hj
        rw [if_pos rfl, List.getElem?_concat_length]
      · rw [if_neg hj, hinv j]
        rcases Nat.lt_or_ge j acc.length with h | h
        · exact (List.getElem?_append_left h).symm
        · rw [List.getElem?_eq_none h, List.getElem?_eq_none (by simp; omega)]
    have hstep := ih (jsArrSet arr acc.length
        (((amendedDrawOne keyMap acc.length draws budget pos).1 : Nat) : Int))
      (acc ++ [(((amendedDrawOne keyMap acc.length draws budget pos).1 : Nat) : Int)])
      (amendedDrawOne keyMap acc.length draws budget pos).2.2
      (amendedDrawOne keyMap acc.length draws budget pos).2.1 hinv'
    have hlen1 : (acc
        ++ [(((amendedDrawOne keyMap acc.length draws budget pos).1 : Nat) : Int)]).length
        = acc.length + 1 := by simp
    rw [hlen1] at hstep
    refine ⟨hstep.1, hstep.2.1, ?_⟩
    rw [hstep.2.2]
    omega

/-- Counterexample to claim C3, two scenarios.  First: with an empty map and
draw stream 1, 0, 5 for two points, the source allocator redraws the second
point (its slot test `points[0]` hits the already-filled slot 0 even though
the value 0 was never chosen) and yields `[1, 5]`, while the allocator the
claim describes accepts 0 and yields `[1, 0]`.  Second: with point 0 already
mapped and a stream of eleven 0s then 7s, the source's batch-wide budget is
exhausted by the first point, so the second point's collision is accepted
with no retry at all (`[0, 0]`), while the claim's per-point budget retries
it and yields `[0, 7]`. -/
theorem makeControlPoints_deviates_from_claimed_allocator :
    ((_makeControlPoints ((fun _ => none) : Option Int → Option String) 2
        (fun k => [1, 0, 5].getD k 0) 0).1 = [1, 5] ∧
      (claimAlloc ((fun _ => none) : Option Int → Option String) 2
        (fun k => [1, 0, 5].getD k 0) 0).1 = [1, 0]) ∧
    ((_makeControlPoints ((fun q => if q = some 0 then some "Z" else none) : Option Int → Option String) 2
        (fun k => if k ≤ 10 then 0 else 7) 0).1 = [0, 0] ∧
      (claimAlloc ((fun q => if q = some 0 then some "Z" else none) : Option Int → Option String) 2
        (fun k => if k ≤ 10 then 0 else 7) 0).1 = [0, 7]) :=
  ⟨⟨by decide, by decide⟩, ⟨by decide, by decide⟩⟩

/-- Claim C3, amended: for every batch allocation (the random draws given as
an input stream), the allocator rejects and redraws a drawn value when it
already exists in the global point-to-node mapping or when it is smaller
than the number of points already placed in this batch (the source tests the
batch array slot indexed by the drawn value, and the filled slots are exactly
`0 .. i-1`); the retry budget of 10 attempts is shared across the whole
batch, not per point; and once the budget is exhausted colliding values are
accepted without an error. -/
theorem makeControlPoints_eq_amended {Node : Type} (keyMap : Option Int → Option Node)
    (n : Nat) (draws : Nat → Nat) (pos : Nat) :
    _makeControlPoints keyMap n draws pos = amendedAlloc keyMap n draws pos := by
  obtain ⟨hpos, hinv, hlen⟩ := mcpGo_eq_amendedGo keyMap draws n (fun _ => none) [] 10 pos
    (by intro j; simp)
  simp only [List.length_nil, Nat.zero_add] at hpos hinv hlen
  unfold _makeControlPoints amendedAlloc
  apply Prod.ext
  · show (List.range n).map _ = _
    apply List.ext_getElem
    · simpa using hlen.symm
    · intro i h1 h2
      rw [List.getElem_map, List.getElem_range, hinv i, List.getElem?_eq_getElem h2]
      rfl
  · exact hpos

/-! ### Claim C4 -/

/-- A sorted list of integers reads monotonically through `getD`. -/
theorem sorted_getD_mono {a : List Int} (hs : List.Sorted (· ≤ ·) a) {k m : Nat}
    (hkm : k ≤ m) (hm : m < a.length) : a.getD k 0 ≤ a.getD m 0 := by
  rcases Nat.eq_or_lt_of_le hkm with h | h
  · subst h; exact le_refl _
  · rw [List.getD_eq_getElem a 0 (by omega), List.getD_eq_getElem a 0 hm]
    exact List.pairwise_iff_getElem.mp hs k m (by omega) hm h

/-- Invariant of the bisection loop on a sorted array: starting from a state
whose prefix below `i` is entirely `< key`, the exit value is nonnegative
and its prefix is still entirely `< key`. -/
theorem bsLoop_inv (a : List Int) (key : Int) (hs : List.Sorted (· ≤ ·) a) :
    ∀ (fuel : Nat) (i j : Int), 0 ≤ i → j ≤ (a.length : Int) - 1 →
    (j - i).toNat ≤ fuel →
    (∀ k : Nat, (k : Int) < i → a.getD k 0 < key) →
    0 ≤ bsLoop a key fuel i j ∧
      ∀ k : Nat, (k : Int) < bsLoop a key fuel i j → a.getD k 0 < key := by
  intro fuel
  induction fuel with
  | zero =>
    intro i j hi hj hf hk
    exact ⟨hi, hk⟩
  | succ fuel ih =>
    intro i j hi hj hf hk
    rw [bsLoop]
    split_ifs with hcond hlt
    · -- window still wide and the middle element is below the key
      apply ih ((i + j) / 2 + 1) j (by omega) hj (by omega)
      intro k hklt
      have hmlen : ((i + j) / 2).toNat < a.length := by omega
      have hmono : a.getD k 0 ≤ a.getD ((i + j) / 2).toNat 0 :=
        sorted_getD_mono hs (by omega) hmlen
      exact lt_of_le_of_lt hmono hlt
    · -- window still wide and the middle element reaches the key
      exact ih i ((i + j) / 2) hi (by omega) (by omega) hk
    · exact ⟨hi, hk⟩

/-- Characterization of the linear scan: a `some` answer is the first
position at or after `i0` whose element reaches the key, and a `none` answer
means no element of the scanned suffix does. -/
theorem linScan_spec (key : Int) : ∀ (l : List Int) (i0 : Nat),
    (∀ ix, linScan key l i0 = some ix →
        i0 ≤ ix ∧ ix - i0 < l.length ∧ key ≤ l.getD (ix - i0) 0 ∧
        ∀ k, k < ix - i0 → l.getD k 0 < key) ∧
    (linScan key l i0 = none → ∀ k, k < l.length → l.getD k 0 < key) := by
  intro l
  induction l with
  | nil =>
    intro i0
    constructor
    · intro ix hix; cases hix
    · intro _ k hk; simp at hk
  | cons x xs ih =>
    intro i0
    rw [linScan]
    split_ifs with hx
    · constructor
      · intro ix hix
        obtain rfl : i0 = ix := by simpa using hix
        refine ⟨le_refl _, by simp, by simpa using hx, ?_⟩
        intro k hk
        omega
      · intro hnone; cases hnone
    · constructor
      · intro ix hix
        obtain ⟨h1, h2, h3, h4⟩ := (ih (i0 + 1)).1 ix hix
        refine ⟨by omega, by simp; omega, ?_, ?_⟩
        · have hsub : ix - i0 = (ix - (i0 + 1)) + 1 := by omega
          rw [hsub, List.getD_cons_succ]
          exact h3
        · intro k hk
          rcases Nat.eq_zero_or_pos k with rfl | hkpos
          · rw [List.getD_cons_zero]; omega
          · obtain ⟨k', rfl⟩ : ∃ k', k = k' + 1 := ⟨k - 1, by omega⟩
            rw [List.getD_cons_succ]
            exact h4 k' (by omega)
      · intro hnone k hk
        rcases Nat.eq_zero_or_pos k with rfl | hkpos
        · rw [List.getD_cons_zero]; omega
        · obtain ⟨k', rfl⟩ : ∃ k', k = k' + 1 := ⟨k - 1, by omega⟩
          rw [List.getD_cons_succ]
          exact (ih (i0 + 1)).2 hnone k' (by simp at hk; omega)

/-- Reading a dropped list at an offset. -/
theorem getD_drop_add (a : List Int) (i0 k : Nat) :
    (a.drop i0).getD k 0 = a.getD (i0 + k) 0 := by
  rw [List.getD_eq_getElem?_getD, List.getD_eq_getElem?_getD, List.getElem?_drop]

/-- Claim C4: on an ascending-sorted integer array, `_absearch` returns the
smallest index whose element is `>= h` when one exists, returns 0 when the
array is non-empty but `h` exceeds every element (ring wrap-around), and
returns -1 when the array is empty. -/
theorem absearch_first_geq_index (a : List Int) (h : Int) (hs : List.Sorted (· ≤ ·) a) :
    (a = [] → _absearch a h = -1) ∧
    ((∃ w, w < a.length ∧ h ≤ a.getD w 0) →
      ∃ ix : Nat, _absearch a h = (ix : Int) ∧ ix < a.length ∧ h ≤ a.getD ix 0 ∧
        ∀ k, k < ix → a.getD k 0 < h) ∧
    (a ≠ [] → (∀ w, w < a.length → a.getD w 0 < h) → _absearch a h = 0) := by
  have hbs := bsLoop_inv a h hs a.length 0 ((a.length : Int) - 1) (by omega)
    (by omega) (by omega) (by intro k hk; omega)
  have hpre : ∀ k : Nat,
      k < (bsLoop a h a.length 0 ((a.length : Int) - 1)).toNat → a.getD k 0 < h := by
    intro k hk
    exact hbs.2 k (by omega)
  refine ⟨?_, ?_, ?_⟩
  · intro ha
    subst ha
    rfl
  · rintro ⟨w, hw, hwge⟩
    rw [_absearch]
    rcases hls : linScan h
        (a.drop (bsLoop a h a.length 0 ((a.length : Int) - 1)).toNat)
        (bsLoop a h a.length 0 ((a.length : Int) - 1)).toNat with _ | ix
    · exfalso
      have hall := (linScan_spec h _ _).2 hls
      have hwin : w < (bsLoop a h a.length 0 ((a.length : Int) - 1)).toNat
          ∨ (bsLoop a h a.length 0 ((a.length : Int) - 1)).toNat ≤ w := by omega
      rcases hwin with hcase | hcase
      · exact absurd (hpre w hcase) (by omega)
      · have hdrop := hall (w - (bsLoop a h a.length 0 ((a.length : Int) - 1)).toNat)
          (by simp [List.length_drop]; omega)
        rw [getD_drop_add] at hdrop
        have hww : (bsLoop a h a.length 0 ((a.length : Int) - 1)).toNat
            + (w - (bsLoop a h a.length 0 ((a.length : Int) - 1)).toNat) = w := by omega
        rw [hww] at hdrop
        omega
    · obtain ⟨h1, h2, h3, h4⟩ := (linScan_spec h _ _).1 ix hls
      rw [getD_drop_add] at h3
      have hix : (bsLoop a h a.length 0 ((a.length : Int) - 1)).toNat
          + (ix - (bsLoop a h a.length 0 ((a.length : Int) - 1)).toNat) = ix := by omega
      rw [hix] at h3
      refine ⟨ix, rfl, ?_, h3, ?_⟩
      · simp [List.length_drop] at h2
        omega
      · intro k hk
        rcases Nat.lt_or_ge k (bsLoop a h a.length 0 ((a.length : Int) - 1)).toNat
          with hc | hc
        · exact hpre k hc
        · have hrest := h4 (k - (bsLoop a h a.length 0 ((a.length : Int) - 1)).toNat)
            (by omega)
          rw [getD_drop_add] at hrest
          have hkk : (bsLoop a h a.length 0 ((a.length : Int) - 1)).toNat
              + (k - (bsLoop a h a.length 0 ((a.length : Int) - 1)).toNat) = k := by omega
          rw [hkk] at hrest
          exact hrest
  · intro hne hall
    rw [_absearch]
    rcases hls : linScan h
        (a.drop (bsLoop a h a.length 0 ((a.length : Int) - 1)).toNat)
        (bsLoop a h a.length 0 ((a.length : Int) - 1)).toNat with _ | ix
    · have hlen0 : a.length ≠ 0 := by
        intro hzero
        exact hne (List.length_eq_zero.mp hzero)
      simp [hlen0]
    · exfalso
      obtain ⟨h1, h2, h3, h4⟩ := (linScan_spec h _ _).1 ix hls
      rw [getD_drop_add] at h3
      have hix : (bsLoop a h a.length 0 ((a.length : Int) - 1)).toNat
          + (ix - (bsLoop a h a.length 0 ((a.length : Int) - 1)).toNat) = ix := by omega
      rw [hix] at h3
      have hixlen : ix < a.length := by
        simp [List.length_drop] at h2
        omega
      exact absurd (hall ix hixlen) (by omega)

/-- Concrete instantiation of `absearch_first_geq_index` on the sorted array
`[1, 3, 5, 7]` with key 4 (the first element `>= 4` sits at index 2). -/
theorem absearch_first_geq_index_witness :
    List.Sorted (· ≤ ·) ([1, 3, 5, 7] : List Int) ∧
    ((([1, 3, 5, 7] : List Int) = [] → _absearch [1, 3, 5, 7] 4 = -1) ∧
      ((∃ w, w < ([1, 3, 5, 7] : List Int).length ∧
          (4 : Int) ≤ ([1, 3, 5, 7] : List Int).getD w 0) →
        ∃ ix : Nat, _absearch [1, 3, 5, 7] 4 = (ix : Int) ∧
          ix < ([1, 3, 5, 7] : List Int).length ∧
          (4 : Int) ≤ ([1, 3, 5, 7] : List Int).getD ix 0 ∧
          ∀ k, k < ix → ([1, 3, 5, 7] : List Int).getD k 0 < 4) ∧
      (([1, 3, 5, 7] : List Int) ≠ [] →
        (∀ w, w < ([1, 3, 5, 7] : List Int).length →
          ([1, 3, 5, 7] : List Int).getD w 0 < 4) →
        _absearch [1, 3, 5, 7] 4 = 0)) :=
  ⟨by decide, absearch_first_geq_index [1, 3, 5, 7] 4 (by decide)⟩

/-! ### Claim C5 -/

/-- The wrap-around test ring of the specification: range 100, control
points 10, 50, 90 owned respectively by nodes A, B, C, built through the
public `add` with explicit points. -/
def ringABC : CHash String :=
  ((((CHash.init String (some 100)).add "A" 1 (some [10]) (fun _ => 0) 0).1.add
      "B" 1 (some [50]) (fun _ => 0) 0).1.add "C" 1 (some [90]) (fun _ => 0) 0).1

/-- Claim C5: on the ring with range 100 and control points 10, 50, 90 owned
by A, B, C, every key hashing to 95 mod 100 resolves to A (wrap-around),
every key hashing to 55 resolves to C, to 10 resolves to A (exact match),
and to 0 resolves to A. -/
theorem wraparound_ring_lookup (name : List Nat) :
    (_hash name % 100 = 95 → (ringABC.get name).1 = some "A") ∧
    (_hash name % 100 = 55 → (ringABC.get name).1 = some "C") ∧
    (_hash name % 100 = 10 → (ringABC.get name).1 = some "A") ∧
    (_hash name % 100 = 0 → (ringABC.get name).1 = some "A") := by
  refine ⟨?_, ?_, ?_, ?_⟩ <;> intro hh <;>
    · show ringABC._keyMap
          (if _absearch [10, 50, 90] ((_hash name % 100 : Nat) : Int) < 0 then none
           else [(10 : Int), 50, 90][(_absearch [10, 50, 90]
              ((_hash name % 100 : Nat) : Int)).toNat]?) = _
      rw [hh]
      decide

/-- Concrete instantiation of `wraparound_ring_lookup` at the four
single-code-unit keys 95, 55, 10 and 0, whose hashes are themselves. -/
theorem wraparound_ring_lookup_witness :
    _hash [95] % 100 = 95 ∧ (ringABC.get [95]).1 = some "A" ∧
    _hash [55] % 100 = 55 ∧ (ringABC.get [55]).1 = some "C" ∧
    _hash [10] % 100 = 10 ∧ (ringABC.get [10]).1 = some "A" ∧
    _hash [0] % 100 = 0 ∧ (ringABC.get [0]).1 = some "A" :=
  ⟨by decide, (wraparound_ring_lookup [95]).1 (by decide), by decide,
   (wraparound_ring_lookup [55]).2.1 (by decide), by decide,
   (wraparound_ring_lookup [10]).2.2.1 (by decide), by decide,
   (wraparound_ring_lookup [0]).2.2.2 (by decide)⟩

/-! ### Claims C1 and C8: counterexamples -/

/-- Counterexample to claim C1: after the public call
`add("A", 1, [5, 500])`, the ring's `keyCount` is 1 (positive), yet `get` on
the key with code 100 (hash 100, which falls between the two control points)
returns the absent value, because the map-update loop of `add` never entered
the point 500 into the map. -/
theorem get_undefined_with_positive_keyCount :
    (run none (fun _ => 0) [Op.add ("A" : String) 1 (some [5, 500])]).1.keyCount
        = 1 ∧
    ((run none (fun _ => 0)
        [Op.add ("A" : String) 1 (some [5, 500])]).1.get [100]).1 = none :=
  ⟨by decide, by decide⟩

/-- Counterexample to claim C8: after the public call
`add("B", 2, [5, 500, 501])`, `keyCount` is 2 but the registration lists
hold 3 control points, so the claimed invariant fails on a reachable
state. -/
theorem keyCount_sum_mismatch_reachable :
    (run none (fun _ => 0) [Op.add ("B" : String) 2 (some [5, 500, 501])]).1.keyCount
        = 2 ∧
    ((run none (fun _ => 0)
        [Op.add ("B" : String) 2 (some [5, 500, 501])]).1._nodeKeys.map List.length).sum = 3 :=
  ⟨by decide, by decide⟩

/-! ### Claim C6 -/

theorem findIdx?_some_spec {α : Type} (p : α → Bool) : ∀ (l : List α) (s ix : Nat),
    List.findIdx? p l s = some ix →
    s ≤ ix ∧ ∃ h : ix - s < l.length, p (l.get ⟨ix - s, h⟩) = true := by
  intro l
  induction l with
  | nil => intro s ix h; rw [List.findIdx?_nil] at h; cases h
  | cons x xs ih =>
    intro s ix h
    rw [List.findIdx?_cons] at h
    split_ifs at h with hp
    · obtain rfl : s = ix := by simpa using h
      exact ⟨le_refl _, by simp, by simpa using hp⟩
    · obtain ⟨h1, h2, h3⟩ := ih (s + 1) ix h
      refine ⟨by omega, ?_⟩
      have hsub : ix - s = (ix - (s + 1)) + 1 := by omega
      rw [hsub]
      refine ⟨by simp; omega, ?_⟩
      simpa using h3

/-- Swap-with-last-and-shrink shortens a non-empty list by one. -/
theorem swapRemove_length {α : Type} (l : List α) (ix : Nat) (h : l ≠ []) :
    (swapRemove l ix).length = l.length - 1 := by
  rw [swapRemove]
  cases hz : l.getLast? with
  | none => exact absurd (List.getLast?_eq_none_iff.mp hz) h
  | some z => simp

/-- Elementwise reading of swap-with-last-and-shrink: position `ix` now
holds the old last element, other positions are untouched. -/
theorem getElem_swapRemove {α : Type} (l : List α) (ix : Nat) (k : Nat)
    (hk : k < (swapRemove l ix).length) (hne : l ≠ [])
    (hk1 : k < l.length) (hlast : l.length - 1 < l.length) :
    (swapRemove l ix)[k] = if ix = k then l[l.length - 1] else l[k] := by
  have hlen := swapRemove_length l ix hne
  have hlpos : 0 < l.length := List.length_pos.mpr hne
  rcases hz : l.getLast? with _ | z
  · exact absurd (List.getLast?_eq_none_iff.mp hz) hne
  · have hbody : swapRemove l ix = (l.set ix z).dropLast := by rw [swapRemove, hz]
    have hzval : z = l[l.length - 1] := by
      rw [List.getLast?_eq_getElem?] at hz
      have hg := List.getElem?_eq_getElem (l := l) (n := l.length - 1) (by omega)
      rw [hg] at hz
      simpa using hz.symm
    simp only [hbody]
    rw [List.getElem_dropLast, List.getElem_set]
    split_ifs with hixk
    · exact hzval
    · rfl



/-- Swap-removing the same index of two parallel lists is swap-removing the
zipped list. -/
theorem zip_swapRemove {Node : Type} (l : List Node) (m : List (List Int)) (ix : Nat)
    (hlen : l.length = m.length) (hne : l ≠ []) :
    (swapRemove l ix).zip (swapRemove m ix) = swapRemove (l.zip m) ix := by
  have hlpos : 0 < l.length := List.length_pos.mpr hne
  have hmne : m ≠ [] := by
    intro h
    apply hne
    apply List.length_eq_zero.mp
    rw [hlen, h]
    rfl
  have hzlen : (l.zip m).length = l.length := by
    rw [List.length_zip]
    omega
  have hzne : l.zip m ≠ [] := by
    intro h
    rw [h] at hzlen
    simp at hzlen
    omega
  apply List.ext_getElem
  · rw [swapRemove_length _ _ hzne, hzlen, List.length_zip,
      swapRemove_length _ _ hne, swapRemove_length _ _ hmne]
    omega
  · intro k h1 h2
    have hk : k < l.length - 1 := by
      rw [List.length_zip, swapRemove_length _ _ hne, swapRemove_length _ _ hmne] at h1
      omega
    have hswl : k < (swapRemove l ix).length := by rw [swapRemove_length _ _ hne]; omega
    have hswm : k < (swapRemove m ix).length := by rw [swapRemove_length _ _ hmne]; omega
    have hswz : k < (swapRemove (l.zip m) ix).length := by
      rw [swapRemove_length _ _ hzne, hzlen]; omega
    rw [List.getElem_zip, getElem_swapRemove l ix k hswl hne (by omega) (by omega),
      getElem_swapRemove m ix k hswm hmne (by omega) (by omega),
      getElem_swapRemove (l.zip m) ix k hswz hzne (by omega) (by omega)]
    have hb1 : (l.zip m).length - 1 < (l.zip m).length := by omega
    have hb2 : l.length - 1 < l.length := by omega
    have hb3 : m.length - 1 < m.length := by omega
    have hzlast : (l.zip m)[(l.zip m).length - 1]
        = (l[l.length - 1], m[m.length - 1]) := by
      have hidx : (l.zip m).length - 1 = l.length - 1 := by omega
      simp only [hidx]
      rw [List.getElem_zip]
      exact congrArg _ (by congr 1; omega)
    split_ifs with hixk
    · rw [hzlast]
    · rw [List.getElem_zip]

/-- Swap-with-last-and-shrink keeps the same elements as deleting the
index, up to order. -/
theorem swapRemove_perm {α : Type} (l : List α) (ix : Nat) (hix : ix < l.length) :
    (swapRemove l ix).Perm (l.eraseIdx ix) := by
  have hne : l ≠ [] := by
    intro h
    subst h
    simp at hix
  rcases hz : l.getLast? with _ | z
  · exact absurd (List.getLast?_eq_none_iff.mp hz) hne
  · have hbody : swapRemove l ix = (l.set ix z).dropLast := by rw [swapRemove, hz]
    rw [hbody, List.set_eq_take_append_cons_drop, if_pos hix,
      List.eraseIdx_eq_take_drop_succ, List.dropLast_append_cons]
    rcases Nat.lt_or_ge ix (l.length - 1) with hcase | hcase
    · have hdne : l.drop (ix + 1) ≠ [] := by
        intro h
        have hl := congrArg List.length h
        rw [List.length_drop] at hl
        simp at hl
        omega
      rw [List.dropLast_cons_of_ne_nil hdne]
      have hlastd : (l.drop (ix + 1)).getLast? = some z := by
        rw [List.getLast?_drop, if_neg (by omega)]
        exact hz
      have hlast_eq : (l.drop (ix + 1)).getLast hdne = z := by
        have := List.getLast?_eq_getLast (l.drop (ix + 1)) hdne
        rw [this] at hlastd
        simpa using hlastd
      have hsplit : (l.drop (ix + 1)).dropLast ++ [z] = l.drop (ix + 1) := by
        rw [← hlast_eq]
        exact List.dropLast_append_getLast hdne
      have hperm : (z :: (l.drop (ix + 1)).dropLast).Perm (l.drop (ix + 1)) := by
        conv_rhs => rw [← hsplit]
        exact (List.perm_append_singleton z _).symm
      exact List.Perm.append_left _ hperm
    · have hdrop_nil : l.drop (ix + 1) = [] := List.drop_eq_nil_of_le (by omega)
      rw [hdrop_nil]
      simp

/-- Deleting a position that fails the predicate does not change the
filtered list. -/
theorem filter_eraseIdx_false {α : Type} (p : α → Bool) : ∀ (l : List α) (ix : Nat)
    (hix : ix < l.length), p (l.get ⟨ix, hix⟩) = false →
    (l.eraseIdx ix).filter p = l.filter p := by
  intro l
  induction l with
  | nil => intro ix hix; simp at hix
  | cons x xs ih =>
    intro ix hix hp
    cases ix with
    | zero =>
      rw [List.eraseIdx_cons_zero, List.filter_cons]
      simp only [List.get_eq_getElem, List.getElem_cons_zero] at hp
      simp [hp]
    | succ n =>
      rw [List.eraseIdx_cons_succ, List.filter_cons, List.filter_cons]
      simp only [List.get_eq_getElem, List.getElem_cons_succ] at hp
      rw [ih n (by simpa using hix) (by simpa using hp)]

/-- Deleting a position that satisfies the predicate removes exactly that
occurrence from the filtered list, up to order. -/
theorem filter_eraseIdx_true {α : Type} (p : α → Bool) : ∀ (l : List α) (ix : Nat)
    (hix : ix < l.length), p (l.get ⟨ix, hix⟩) = true →
    (l.filter p).Perm (l.get ⟨ix, hix⟩ :: (l.eraseIdx ix).filter p) := by
  intro l
  induction l with
  | nil => intro ix hix; simp at hix
  | cons x xs ih =>
    intro ix hix hp
    cases ix with
    | zero =>
      rw [List.eraseIdx_cons_zero, List.filter_cons]
      simp only [List.get_eq_getElem, List.getElem_cons_zero] at hp ⊢
      simp [hp]
    | succ n =>
      simp only [List.get_eq_getElem, List.getElem_cons_succ] at hp ⊢
      rw [List.eraseIdx_cons_succ, List.filter_cons, List.filter_cons]
      have hn : n < xs.length := by simpa using hix
      have hperm := ih n hn (by simpa using hp)
      simp only [List.get_eq_getElem] at hperm
      rcases hpx : p x with _ | _
      · simpa [hpx] using hperm
      · simp only [hpx, if_pos]
        refine List.Perm.trans (List.Perm.cons x hperm) ?_
        exact List.Perm.swap _ _ _

/-- Full characterization of the `remove` loop with sufficient fuel: the
remaining zipped registrations are exactly the non-matching ones (up to
order), the parallel lists keep equal lengths, the counters drop by the
total matched point count and by the number of matches, a miss leaves the
state untouched, and a hit clears the cached sorted index. -/
theorem removeLoop_master {Node : Type} [DecidableEq Node] (node : Node) :
    ∀ (fuel : Nat) (nodes : List Node) (nodeKeys : List (List Int))
      (ks : Option (List Int)) (kc nc : Int),
    nodes.length = nodeKeys.length → nodes.length ≤ fuel →
    ((removeLoop node fuel (nodes, nodeKeys, ks, kc, nc)).1.zip
        (removeLoop node fuel (nodes, nodeKeys, ks, kc, nc)).2.1).Perm
      ((nodes.zip nodeKeys).filter (fun p => !decide (p.1 = node))) ∧
    (removeLoop node fuel (nodes, nodeKeys, ks, kc, nc)).1.length
      = (removeLoop node fuel (nodes, nodeKeys, ks, kc, nc)).2.1.length ∧
    (removeLoop node fuel (nodes, nodeKeys, ks, kc, nc)).2.2.2.1
      = kc - (((nodes.zip nodeKeys).filter (fun p => decide (p.1 = node))).map
          (fun p => (p.2.length : Int))).sum ∧
    (removeLoop node fuel (nodes, nodeKeys, ks, kc, nc)).2.2.2.2
      = nc - (((nodes.zip nodeKeys).filter (fun p => decide (p.1 = node))).length : Int) ∧
    (node ∉ nodes → removeLoop node fuel (nodes, nodeKeys, ks, kc, nc)
      = (nodes, nodeKeys, ks, kc, nc)) ∧
    (node ∈ nodes → (removeLoop node fuel (nodes, nodeKeys, ks, kc, nc)).2.2.1 = none) := by
  intro fuel
  induction fuel with
  | zero =>
    intro nodes nodeKeys ks kc nc hlen hfuel
    have hnil : nodes = [] := List.length_eq_zero.mp (by omega)
    subst hnil
    refine ⟨by simp [removeLoop], by simp [removeLoop]; omega, by simp [removeLoop],
      by simp [removeLoop], fun _ => rfl, fun hmem => absurd hmem (by simp)⟩
  | succ fuel ih =>
    intro nodes nodeKeys ks kc nc hlen hfuel
    rcases hfind : List.findIdx? (fun x => decide (x = node)) nodes with _ | ix
    · have hstep : removeLoop node (fuel + 1) (nodes, nodeKeys, ks, kc, nc)
          = (nodes, nodeKeys, ks, kc, nc) := by
        rw [removeLoop]
        simp [hfind]
      rw [hstep]
      have hnotmem : node ∉ nodes := by
        intro hmem
        have hfalse := List.findIdx?_eq_none_iff.mp hfind node hmem
        simp at hfalse
      have hkeep : (nodes.zip nodeKeys).filter (fun p => !decide (p.1 = node))
          = nodes.zip nodeKeys := by
        apply List.filter_eq_self.mpr
        rintro ⟨a1, a2⟩ ha
        have ha1 : a1 ∈ nodes := (List.of_mem_zip ha).1
        have hfalse := List.findIdx?_eq_none_iff.mp hfind a1 ha1
        simpa using hfalse
      have hmatch_nil : (nodes.zip nodeKeys).filter (fun p => decide (p.1 = node)) = [] := by
        apply List.filter_eq_nil_iff.mpr
        rintro ⟨a1, a2⟩ ha
        have ha1 : a1 ∈ nodes := (List.of_mem_zip ha).1
        have hfalse := List.findIdx?_eq_none_iff.mp hfind a1 ha1
        simpa using hfalse
      refine ⟨by rw [hkeep], hlen, by rw [hmatch_nil]; simp, by rw [hmatch_nil]; simp,
        fun _ => rfl, fun hmem => absurd hmem hnotmem⟩
    · obtain ⟨-, hspec⟩ := findIdx?_some_spec (fun x => decide (x = node)) nodes 0 ix hfind
      obtain ⟨hixlt0, hpix⟩ := hspec
      have hixlt : ix < nodes.length := by simpa using hixlt0
      have hnode : nodes.get ⟨ix, hixlt⟩ = node := by
        have := hpix
        simp only [Nat.sub_zero] at this
        simpa using this
      have hne : nodes ≠ [] := by
        intro h
        subst h
        simp at hixlt
      have hkne : nodeKeys ≠ [] := by
        intro h
        apply hne
        apply List.length_eq_zero.mp
        rw [hlen, h]
        rfl
      have hzlen : (nodes.zip nodeKeys).length = nodes.length := by
        rw [List.length_zip]
        omega
      have hzne : nodes.zip nodeKeys ≠ [] := by
        intro h
        rw [h] at hzlen
        simp at hzlen
        omega
      have hstep : removeLoop node (fuel + 1) (nodes, nodeKeys, ks, kc, nc)
          = removeLoop node fuel (swapRemove nodes ix, swapRemove nodeKeys ix, none,
              kc - ((nodeKeys.getD ix []).length : Int), nc - 1) := by
        rw [removeLoop]
        simp [hfind]
      rw [hstep]
      have hlen' : (swapRemove nodes ix).length = (swapRemove nodeKeys ix).length := by
        rw [swapRemove_length _ _ hne, swapRemove_length _ _ hkne]
        omega
      have hfuel' : (swapRemove nodes ix).length ≤ fuel := by
        rw [swapRemove_length _ _ hne]
        omega
      obtain ⟨IHperm, IHlen, IHkc, IHnc, IHnoop, IHmem⟩ :=
        ih (swapRemove nodes ix) (swapRemove nodeKeys ix) none
          (kc - ((nodeKeys.getD ix []).length : Int)) (nc - 1) hlen' hfuel'
      have hzip : (swapRemove nodes ix).zip (swapRemove nodeKeys ix)
          = swapRemove (nodes.zip nodeKeys) ix := zip_swapRemove nodes nodeKeys ix hlen hne
      have hperm : (swapRemove (nodes.zip nodeKeys) ix).Perm
          ((nodes.zip nodeKeys).eraseIdx ix) := swapRemove_perm _ ix (by omega)
      have hZix : (nodes.zip nodeKeys).get ⟨ix, by omega⟩
          = (node, nodeKeys.get ⟨ix, by omega⟩) := by
        rw [List.get_eq_getElem, List.getElem_zip]
        rw [List.get_eq_getElem] at hnode
        rw [hnode]
        rfl
      have hkeepZ : (fun p : Node × List Int => !decide (p.1 = node))
          ((nodes.zip nodeKeys).get ⟨ix, by omega⟩) = false := by
        rw [hZix]
        simp
      have hmatchZ : (fun p : Node × List Int => decide (p.1 = node))
          ((nodes.zip nodeKeys).get ⟨ix, by omega⟩) = true := by
        rw [hZix]
        simp
      have hkeep_erase := filter_eraseIdx_false
        (fun p : Node × List Int => !decide (p.1 = node)) (nodes.zip nodeKeys) ix
        (by omega) hkeepZ
      have hmatch_perm := filter_eraseIdx_true
        (fun p : Node × List Int => decide (p.1 = node)) (nodes.zip nodeKeys) ix
        (by omega) hmatchZ
      have hswap_filter_keep : ((swapRemove (nodes.zip nodeKeys) ix).filter
          (fun p => !decide (p.1 = node))).Perm
          ((nodes.zip nodeKeys).filter (fun p => !decide (p.1 = node))) := by
        rw [← hkeep_erase]
        exact List.Perm.filter _ hperm
      have hswap_filter_match : ((swapRemove (nodes.zip nodeKeys) ix).filter
          (fun p => decide (p.1 = node))).Perm
          (((nodes.zip nodeKeys).eraseIdx ix).filter (fun p => decide (p.1 = node))) :=
        List.Perm.filter _ hperm
      have hgetD : nodeKeys.getD ix [] = nodeKeys.get ⟨ix, by omega⟩ := by
        rw [List.get_eq_getElem]
        exact List.getD_eq_getElem nodeKeys [] (by omega)
      refine ⟨?_, IHlen, ?_, ?_, ?_, ?_⟩
      · rw [hzip] at IHperm
        exact IHperm.trans hswap_filter_keep
      · rw [IHkc, hzip]
        have hsum_swap : (((swapRemove (nodes.zip nodeKeys) ix).filter
            (fun p => decide (p.1 = node))).map (fun p => (p.2.length : Int))).sum
            = ((((nodes.zip nodeKeys).eraseIdx ix).filter
              (fun p => decide (p.1 = node))).map (fun p => (p.2.length : Int))).sum :=
          (hswap_filter_match.map _).sum_eq
        have hsum_orig : (((nodes.zip nodeKeys).filter
            (fun p => decide (p.1 = node))).map (fun p => (p.2.length : Int))).sum
            = ((nodeKeys.get ⟨ix, by omega⟩).length : Int)
              + ((((nodes.zip nodeKeys).eraseIdx ix).filter
                (fun p => decide (p.1 = node))).map (fun p => (p.2.length : Int))).sum := by
          have hmap := (hmatch_perm.map (fun p : Node × List Int => (p.2.length : Int))).sum_eq
          rw [hmap, List.map_cons, List.sum_cons, hZix]
        rw [hsum_swap, hgetD, hsum_orig]
        ring
      · rw [IHnc, hzip]
        have hlen_swap : ((swapRemove (nodes.zip nodeKeys) ix).filter
            (fun p => decide (p.1 = node))).length
            = (((nodes.zip nodeKeys).eraseIdx ix).filter
              (fun p => decide (p.1 = node))).length := hswap_filter_match.length_eq
        have hlen_orig : ((nodes.zip nodeKeys).filter
            (fun p => decide (p.1 = node))).length
            = 1 + (((nodes.zip nodeKeys).eraseIdx ix).filter
              (fun p => decide (p.1 = node))).length := by
          rw [hmatch_perm.length_eq, List.length_cons]
          omega
        rw [hlen_swap, hlen_orig]
        push_cast
        ring
      · intro hnotmem
        exfalso
        apply hnotmem
        rw [← hnode]
        exact List.get_mem nodes ix hixlt
      · intro _
        by_cases hmem' : node ∈ swapRemove nodes ix
        · exact IHmem hmem'
        · rw [IHnoop hmem']

/-- Claim C6: `remove(node)` removes every registration whose stored node
matches `node` (duplicates included: the remaining registrations are exactly
the non-matching ones, as a multiset), decrements `keyCount` by each removed
registration's point-list length and `nodeCount` by one per match,
invalidates the cached sorted index when a match exists, and is a no-op
returning the state unchanged when the node has no registration. -/
theorem remove_all_matching_registrations {Node : Type} [DecidableEq Node]
    (s : CHash Node) (node : Node) (hlen : s._nodes.length = s._nodeKeys.length) :
    (((s.remove node)._nodes.zip (s.remove node)._nodeKeys).Perm
      ((s._nodes.zip s._nodeKeys).filter (fun p => !decide (p.1 = node)))) ∧
    node ∉ (s.remove node)._nodes ∧
    ((s.remove node).keyCount = s.keyCount
        - (((s._nodes.zip s._nodeKeys).filter (fun p => decide (p.1 = node))).map
            (fun p => (p.2.length : Int))).sum) ∧
    ((s.remove node).nodeCount = s.nodeCount
        - (((s._nodes.zip s._nodeKeys).filter (fun p => decide (p.1 = node))).length : Int)) ∧
    (node ∈ s._nodes → (s.remove node)._keys = none) ∧
    (node ∉ s._nodes → s.remove node = s) := by
  obtain ⟨Mperm, Mlen, Mkc, Mnc, Mnoop, Mmem⟩ := removeLoop_master node s._nodes.length
    s._nodes s._nodeKeys s._keys s.keyCount s.nodeCount hlen (le_refl _)
  refine ⟨Mperm, ?_, Mkc, Mnc, Mmem, ?_⟩
  · intro hmem
    have hmap : (s.remove node)._nodes
        = ((s.remove node)._nodes.zip (s.remove node)._nodeKeys).map Prod.fst :=
      (List.map_fst_zip _ _ (le_of_eq Mlen)).symm
    rw [hmap] at hmem
    obtain ⟨⟨p1, p2⟩, hp_mem, hp_eq⟩ := List.mem_map.mp hmem
    have hp_filter := Mperm.mem_iff.mp hp_mem
    have := List.of_mem_filter hp_filter
    simp only at hp_eq
    subst hp_eq
    simp at this
  · intro hnotmem
    show { s with
        _nodes := (removeLoop node s._nodes.length
          (s._nodes, s._nodeKeys, s._keys, s.keyCount, s.nodeCount)).1,
        _nodeKeys := (removeLoop node s._nodes.length
          (s._nodes, s._nodeKeys, s._keys, s.keyCount, s.nodeCount)).2.1,
        _keys := (removeLoop node s._nodes.length
          (s._nodes, s._nodeKeys, s._keys, s.keyCount, s.nodeCount)).2.2.1,
        keyCount := (removeLoop node s._nodes.length
          (s._nodes, s._nodeKeys, s._keys, s.keyCount, s.nodeCount)).2.2.2.1,
        nodeCount := (removeLoop node s._nodes.length
          (s._nodes, s._nodeKeys, s._keys, s.keyCount, s.nodeCount)).2.2.2.2 } = s
    rw [Mnoop hnotmem]

/-- A ring with node X registered twice (at points 5 and 500) and node Y
once (at point 7), built through the public `add`. -/
def ringXYX : CHash String :=
  ((((CHash.init String none).add "X" 1 (some [5]) (fun _ => 0) 0).1.add
      "Y" 1 (some [7]) (fun _ => 0) 0).1.add "X" 1 (some [500]) (fun _ => 0) 0).1

/-- Concrete instantiation of `remove_all_matching_registrations`: removing
X from the ring that registers X twice drops both registrations at once. -/
theorem remove_all_matching_registrations_witness :
    ringXYX._nodes.length = ringXYX._nodeKeys.length ∧
    ((((ringXYX.remove "X")._nodes.zip (ringXYX.remove "X")._nodeKeys).Perm
      ((ringXYX._nodes.zip ringXYX._nodeKeys).filter (fun p => !decide (p.1 = "X")))) ∧
    "X" ∉ (ringXYX.remove "X")._nodes ∧
    ((ringXYX.remove "X").keyCount = ringXYX.keyCount
        - (((ringXYX._nodes.zip ringXYX._nodeKeys).filter
            (fun p => decide (p.1 = "X"))).map (fun p => (p.2.length : Int))).sum) ∧
    ((ringXYX.remove "X").nodeCount = ringXYX.nodeCount
        - (((ringXYX._nodes.zip ringXYX._nodeKeys).filter
            (fun p => decide (p.1 = "X"))).length : Int)) ∧
    ("X" ∈ ringXYX._nodes → (ringXYX.remove "X")._keys = none) ∧
    ("X" ∉ ringXYX._nodes → ringXYX.remove "X" = ringXYX)) :=
  ⟨by decide, remove_all_matching_registrations ringXYX "X" (by decide)⟩

/-! ### Claim C7 -/

/-- The fold step of the source hash agrees with the specification-worded
step. -/
theorem hashStep_agrees (h c : Nat) : hashStep h c = hashClaimStep h c := by
  rw [hashStep, hashClaimStep]
  simp only [land_top4, Nat.shiftRight_eq_div_pow]

/-- Claim C7: the string hash is a pure function of the code-unit sequence
computed by the specification's rolling scheme (left shift by 4, add the
code, fold bits 24-27 by xor into the accumulator and, shifted down by 24,
into the low byte), and the empty string hashes to 0. -/
theorem hash_matches_claimed_scheme :
    (∀ s : List Nat, _hash s = hashClaim s) ∧ _hash [] = 0 := by
  constructor
  · have go : ∀ (s : List Nat) (h : Nat), List.foldl hashStep h s = hashClaimGo h s := by
      intro s
      induction s with
      | nil => intro h; rfl
      | cons c cs ih =>
        intro h
        rw [List.foldl_cons, hashClaimGo, hashStep_agrees]
        exact ih (hashClaimStep h c)
    exact fun s => go s 0
  · rfl

/-! ### Claims C1 and C8: reachability invariant and amended claims -/

/-- The reachability invariant for well-formed operation sequences: parallel
lists share a length, `keyCount` totals the registration lengths, a present
cache is the sorted flattening, and every registered control point reads
back from the map. -/
def Inv {Node : Type} (s : CHash Node) : Prop :=
  s._nodes.length = s._nodeKeys.length ∧
  s.keyCount = (s._nodeKeys.map (fun ks => (ks.length : Int))).sum ∧
  (∀ ks, s._keys = some ks → ks = _buildKeys s._nodeKeys) ∧
  (∀ p : Int, p ∈ s._nodeKeys.flatten → (s._keyMap (some p)).isSome)

/-- A mapped sum splits into the sums over the matching and the
non-matching elements. -/
theorem sum_map_filter_split {α : Type} (f : α → Int) (p : α → Bool) (l : List α) :
    (l.map f).sum = ((l.filter p).map f).sum + ((l.filter (fun x => !p x)).map f).sum := by
  induction l with
  | nil => simp
  | cons x xs ih =>
    rcases hx : p x with _ | _ <;>
      simp [List.filter_cons, hx, ih] <;> ring

/-- A freshly constructed ring satisfies the invariant. -/
theorem inv_init {Node : Type} (range : Option Nat) : Inv (CHash.init Node range) := by
  refine ⟨rfl, rfl, ?_, ?_⟩
  · intro ks h
    cases h
  · intro p hp
    simp [CHash.init] at hp

/-- A well-formed `add` preserves the invariant. -/
theorem add_preserves_inv {Node : Type} (s : CHash Node) (node : Node) (n : Nat)
    (points : Option (List Int)) (draws : Nat → Nat) (pos : Nat)
    (hwf : wfOp (Op.add node n points) = true) (hs : Inv s) :
    Inv (s.add node n points draws pos).1 := by
  obtain ⟨hlen, hkc, hcache, hcov⟩ := hs
  have hps : ∃ ps : List Int,
      (s.add node n points draws pos).1._nodes = s._nodes ++ [node] ∧
      (s.add node n points draws pos).1._nodeKeys = s._nodeKeys ++ [ps] ∧
      (s.add node n points draws pos).1._keyMap
        = addMapWrites s._keyMap node ps (if n = 0 then 1 else n) ∧
      (s.add node n points draws pos).1._keys = none ∧
      (s.add node n points draws pos).1.keyCount
        = s.keyCount + ((if n = 0 then 1 else n : Nat) : Int) ∧
      ps.length = (if n = 0 then 1 else n) := by
    rcases points with _ | arr
    · exact ⟨(_makeControlPoints s._keyMap (if n = 0 then 1 else n) draws pos).1,
        rfl, rfl, rfl, rfl, rfl, makeControlPoints_length _ _ _ _⟩
    · refine ⟨arr, rfl, rfl, rfl, rfl, rfl, ?_⟩
      have hbeq : ((if n = 0 then 1 else n : Nat) == arr.length) = true := hwf
      exact (eq_of_beq hbeq).symm
  obtain ⟨ps, h1, h2, h3, h4, h5, h6⟩ := hps
  refine ⟨?_, ?_, ?_, ?_⟩
  · rw [h1, h2]
    simp [hlen]
  · rw [h5, h2, hkc, List.map_append, List.sum_append]
    simp [h6]
  · intro ks hks
    rw [h4] at hks
    cases hks
  · intro p hp
    rw [h2, List.flatten_append] at hp
    rw [h3, addMapWrites_apply]
    rcases List.mem_append.mp hp with hold | hnew
    · by_cases hex : ∃ i, i < (if n = 0 then 1 else n) ∧ ps[i]? = some p
      · rw [if_pos hex]
        rfl
      · rw [if_neg hex]
        exact hcov p hold
    · have hmem : p ∈ ps := by simpa using hnew
      obtain ⟨i, hi, hip⟩ := List.getElem_of_mem hmem
      rw [if_pos ⟨i, by omega, by rw [List.getElem?_eq_getElem hi, hip]⟩]
      rfl


/-- Any `remove` preserves the invariant. -/
theorem remove_preserves_inv {Node : Type} [DecidableEq Node] (s : CHash Node)
    (node : Node) (hs : Inv s) : Inv (s.remove node) := by
  obtain ⟨hlen, hkc, hcache, hcov⟩ := hs
  obtain ⟨Mperm, Mlen, Mkc, Mnc, Mnoop, Mmem⟩ := removeLoop_master node s._nodes.length
    s._nodes s._nodeKeys s._keys s.keyCount s.nodeCount hlen (le_refl _)
  have ekc : (s.remove node).keyCount = (removeLoop node s._nodes.length
      (s._nodes, s._nodeKeys, s._keys, s.keyCount, s.nodeCount)).2.2.2.1 := rfl
  have ekeys : (s.remove node)._keys = (removeLoop node s._nodes.length
      (s._nodes, s._nodeKeys, s._keys, s.keyCount, s.nodeCount)).2.2.1 := rfl
  by_cases hmem : node ∈ s._nodes
  · have hkeys_perm : (s.remove node)._nodeKeys.Perm
        (((s._nodes.zip s._nodeKeys).filter
          (fun p => !decide (p.1 = node))).map Prod.snd) := by
      have hm : (s.remove node)._nodeKeys
          = ((s.remove node)._nodes.zip (s.remove node)._nodeKeys).map Prod.snd :=
        (List.map_snd_zip _ _ (le_of_eq Mlen.symm)).symm
      rw [hm]
      exact Mperm.map Prod.snd
    refine ⟨Mlen, ?_, ?_, ?_⟩
    · rw [ekc, Mkc, hkc]
      have hsplit := sum_map_filter_split (fun p : Node × List Int => (p.2.length : Int))
        (fun p => decide (p.1 = node)) (s._nodes.zip s._nodeKeys)
      have hzip_map : (s._nodes.zip s._nodeKeys).map
          (fun p : Node × List Int => (p.2.length : Int)) =
          s._nodeKeys.map (fun ks => (ks.length : Int)) := by
        have hm := List.map_snd_zip s._nodes s._nodeKeys (le_of_eq hlen.symm)
        calc (s._nodes.zip s._nodeKeys).map (fun p : Node × List Int => (p.2.length : Int))
            = ((s._nodes.zip s._nodeKeys).map Prod.snd).map
                (fun ks : List Int => (ks.length : Int)) := by rw [List.map_map]; rfl
          _ = s._nodeKeys.map (fun ks => (ks.length : Int)) := by rw [hm]
      have hnew_sum : ((s.remove node)._nodeKeys.map (fun ks => (ks.length : Int))).sum
          = ((((s._nodes.zip s._nodeKeys).filter
              (fun p => !decide (p.1 = node))).map Prod.snd).map
                (fun ks : List Int => (ks.length : Int))).sum :=
        (hkeys_perm.map (fun ks : List Int => (ks.length : Int))).sum_eq
      have hcomp : ((((s._nodes.zip s._nodeKeys).filter
          (fun p => !decide (p.1 = node))).map Prod.snd).map
            (fun ks : List Int => (ks.length : Int))).sum
          = (((s._nodes.zip s._nodeKeys).filter
            (fun p => !decide (p.1 = node))).map
              (fun p : Node × List Int => (p.2.length : Int))).sum := by
        rw [List.map_map]
        rfl
      rw [hnew_sum, hcomp]
      rw [hzip_map] at hsplit
      omega
    · intro ks hks
      rw [ekeys, Mmem hmem] at hks
      cases hks
    · intro p hp
      show (s._keyMap (some p)).isSome = true
      apply hcov
      rw [List.mem_flatten] at hp ⊢
      obtain ⟨ks, hks_mem, hp_in⟩ := hp
      have hks_old : ks ∈ s._nodeKeys := by
        have hmem2 := hkeys_perm.mem_iff.mp hks_mem
        obtain ⟨⟨q1, q2⟩, hq_mem, hq_eq⟩ := List.mem_map.mp hmem2
        have hq_zip := List.mem_of_mem_filter hq_mem
        have hsnd := (List.of_mem_zip hq_zip).2
        simpa [← hq_eq] using hsnd
      exact ⟨ks, hks_old, hp_in⟩
  · have heq : s.remove node = s := by
      show { s with
          _nodes := (removeLoop node s._nodes.length
            (s._nodes, s._nodeKeys, s._keys, s.keyCount, s.nodeCount)).1,
          _nodeKeys := (removeLoop node s._nodes.length
            (s._nodes, s._nodeKeys, s._keys, s.keyCount, s.nodeCount)).2.1,
          _keys := (removeLoop node s._nodes.length
            (s._nodes, s._nodeKeys, s._keys, s.keyCount, s.nodeCount)).2.2.1,
          keyCount := (removeLoop node s._nodes.length
            (s._nodes, s._nodeKeys, s._keys, s.keyCount, s.nodeCount)).2.2.2.1,
          nodeCount := (removeLoop node s._nodes.length
            (s._nodes, s._nodeKeys, s._keys, s.keyCount, s.nodeCount)).2.2.2.2 } = s
      rw [Mnoop hmem]
    rw [heq]
    exact ⟨hlen, hkc, hcache, hcov⟩

/-- A `get` (whose only state effect is caching the sorted index)
preserves the invariant. -/
theorem get_preserves_inv {Node : Type} (s : CHash Node) (name : List Nat)
    (hs : Inv s) : Inv (s.get name).2 := by
  obtain ⟨hlen, hkc, hcache, hcov⟩ := hs
  have hsnd : (s.get name).2 = { s with _keys := some (match s._keys with
      | some ks => ks
      | none => _buildKeys s._nodeKeys) } := by
    rw [CHash.get]
    split_ifs <;> rfl
  rw [hsnd]
  refine ⟨hlen, hkc, ?_, hcov⟩
  intro ks hks
  rcases hcase : s._keys with _ | cached
  · simp only [hcase] at hks
    exact (Option.some_injective _ hks).symm ▸ rfl
  · simp only [hcase] at hks
    have := hcache cached hcase
    rw [← (Option.some_injective _ hks)]
    exact this

/-- Folding well-formed operations preserves the invariant. -/
theorem foldl_inv {Node : Type} [DecidableEq Node] (draws : Nat → Nat) :
    ∀ (ops : List (Op Node)) (t : CHash Node × Nat),
    wfOps ops = true → Inv t.1 → Inv (ops.foldl (step draws) t).1 := by
  intro ops
  induction ops with
  | nil => intro t _ ht; exact ht
  | cons op ops ih =>
    intro t hwf ht
    have hwf1 : wfOp op = true ∧ wfOps ops = true := by
      rw [wfOps, List.all_cons] at hwf
      exact ⟨(Bool.and_eq_true_iff.mp hwf).1, (Bool.and_eq_true_iff.mp hwf).2⟩
    rw [List.foldl_cons]
    apply ih _ hwf1.2
    rcases op with ⟨node, n, points⟩ | node | name
    · exact add_preserves_inv t.1 node n points draws t.2 hwf1.1 ht
    · exact remove_preserves_inv t.1 node ht
    · exact get_preserves_inv t.1 name ht

/-- Every state reachable by a well-formed operation sequence from a fresh
ring satisfies the invariant. -/
theorem run_inv {Node : Type} [DecidableEq Node] (range : Option Nat)
    (draws : Nat → Nat) (ops : List (Op Node)) (hwf : wfOps ops = true) :
    Inv (run range draws ops).1 :=
  foldl_inv draws ops (CHash.init Node range, 0) hwf (inv_init range)

/-- On any non-empty array (sorted or not), `_absearch` returns an
in-range index. -/
theorem absearch_bounds (a : List Int) (h : Int) (hne : a ≠ []) :
    0 ≤ _absearch a h ∧ (_absearch a h).toNat < a.length := by
  have hpos : 0 < a.length := List.length_pos.mpr hne
  rw [_absearch]
  rcases hls : linScan h
      (a.drop (bsLoop a h a.length 0 ((a.length : Int) - 1)).toNat)
      (bsLoop a h a.length 0 ((a.length : Int) - 1)).toNat with _ | ix
  · show (0 ≤ (if a.length = 0 then (-1 : Int) else 0)) ∧
      (if a.length = 0 then (-1 : Int) else 0).toNat < a.length
    rw [if_neg (by omega)]
    exact ⟨by omega, by omega⟩
  · show (0 ≤ ((ix : Nat) : Int)) ∧ (((ix : Nat) : Int)).toNat < a.length
    obtain ⟨h1, h2, -, -⟩ := (linScan_spec h _ _).1 ix hls
    rw [List.length_drop] at h2
    constructor
    · omega
    · have hlt : ix < a.length := by omega
      simpa using hlt

/-- Under the invariant, `get` answers `none` exactly on an empty ring,
and any answer it gives comes from the point-to-node map. -/
theorem get_some_of_inv {Node : Type} (s : CHash Node) (name : List Nat)
    (hs : Inv s) :
    ((s.get name).1 = none ↔ s.keyCount = 0) ∧
    (∀ v, (s.get name).1 = some v → ∃ q, s._keyMap q = some v) := by
  obtain ⟨hlen, hkc, hcache, hcov⟩ := hs
  have hkeys_eq : (match s._keys with
      | some ks => ks
      | none => _buildKeys s._nodeKeys) = _buildKeys s._nodeKeys := by
    rcases hc : s._keys with _ | cached
    · rfl
    · exact hcache cached hc
  by_cases hzero : s.keyCount = 0
  · have hnone : (s.get name).1 = none := by
      rw [CHash.get]
      simp [hzero]
    refine ⟨⟨fun _ => hzero, fun _ => hnone⟩, ?_⟩
    intro v hv
    rw [hnone] at hv
    cases hv
  · have hflat_ne : s._nodeKeys.flatten ≠ [] := by
      intro hflat
      apply hzero
      rw [hkc]
      apply List.sum_eq_zero
      intro x hx
      obtain ⟨ks, hks, hx_eq⟩ := List.mem_map.mp hx
      have hks_nil : ks = [] := List.flatten_eq_nil_iff.mp hflat ks hks
      rw [hks_nil] at hx_eq
      simpa using hx_eq.symm
    have hbk_perm : (_buildKeys s._nodeKeys).Perm s._nodeKeys.flatten := by
      rw [_buildKeys]
      exact List.perm_insertionSort _ _
    have hbk_ne : _buildKeys s._nodeKeys ≠ [] := by
      intro h0
      exact hflat_ne (h0 ▸ hbk_perm).symm.eq_nil
    obtain ⟨hge0, hlt⟩ := absearch_bounds (_buildKeys s._nodeKeys)
      ((_hash name % s._range : Nat) : Int) hbk_ne
    have hp_eq : (_buildKeys s._nodeKeys)[(_absearch (_buildKeys s._nodeKeys)
        ((_hash name % s._range : Nat) : Int)).toNat]?
        = some ((_buildKeys s._nodeKeys).get ⟨(_absearch (_buildKeys s._nodeKeys)
          ((_hash name % s._range : Nat) : Int)).toNat, hlt⟩) := by
      rw [List.getElem?_eq_getElem hlt]
      rfl
    have hp_mem : (_buildKeys s._nodeKeys).get ⟨(_absearch (_buildKeys s._nodeKeys)
        ((_hash name % s._range : Nat) : Int)).toNat, hlt⟩ ∈ s._nodeKeys.flatten :=
      hbk_perm.mem_iff.mp (List.get_mem _ _ hlt)
    have hres : (s.get name).1 = s._keyMap
        (some ((_buildKeys s._nodeKeys).get ⟨(_absearch (_buildKeys s._nodeKeys)
          ((_hash name % s._range : Nat) : Int)).toNat, hlt⟩)) := by
      rw [CHash.get]
      simp only [hkeys_eq, if_neg hzero]
      rw [if_neg (by omega), hp_eq]
    have hsome := hcov _ hp_mem
    obtain ⟨v, hv⟩ := Option.isSome_iff_exists.mp hsome
    refine ⟨⟨?_, fun h0 => absurd h0 hzero⟩, ?_⟩
    · intro hnone
      rw [hres, hv] at hnone
      cases hnone
    · intro v' hv'
      rw [hres] at hv'
      exact ⟨_, hv'⟩

/-- Claim C8, amended: in every ring state reachable through add/remove/get
sequences in which each `add` with an explicit point list passes a weight
equal to the list's length, `keyCount` equals the sum of the lengths of the
per-registration control-point lists. -/
theorem keyCount_eq_sum_under_wf_ops {Node : Type} [DecidableEq Node]
    (range : Option Nat) (draws : Nat → Nat) (ops : List (Op Node))
    (hwf : wfOps ops = true) :
    (run range draws ops).1.keyCount
      = ((run range draws ops).1._nodeKeys.map (fun ks => (ks.length : Int))).sum :=
  (run_inv range draws ops hwf).2.1

/-- Concrete instantiation of `keyCount_eq_sum_under_wf_ops` on a
well-formed sequence that adds, removes and re-adds nodes. -/
theorem keyCount_eq_sum_under_wf_ops_witness :
    wfOps [Op.add "A" 2 (some [5, 500]), Op.remove ("A" : String),
      Op.add "B" 0 none] = true ∧
    (run none (fun _ => 3)
        [Op.add "A" 2 (some [5, 500]), Op.remove "A", Op.add "B" 0 none]).1.keyCount
      = ((run none (fun _ => 3)
          [Op.add "A" 2 (some [5, 500]), Op.remove "A",
            Op.add "B" 0 none]).1._nodeKeys.map (fun ks => (ks.length : Int))).sum :=
  ⟨by decide, keyCount_eq_sum_under_wf_ops none (fun _ => 3)
    [Op.add "A" 2 (some [5, 500]), Op.remove "A", Op.add "B" 0 none] (by decide)⟩

/-- Claim C1, amended: in every ring state reachable through add/remove/get
sequences in which each `add` with an explicit point list passes a weight
equal to the list's length, `get` returns the not-found value exactly when
`pointCount` is 0, and with `pointCount` positive it returns some value
recorded in the point-to-node map (possibly a stale entry whose node has
since been removed, so not necessarily a currently registered node). -/
theorem get_total_iff_points {Node : Type} [DecidableEq Node] (range : Option Nat)
    (draws : Nat → Nat) (ops : List (Op Node)) (name : List Nat)
    (hwf : wfOps ops = true) :
    (((run range draws ops).1.get name).1 = none
        ↔ (run range draws ops).1.keyCount = 0) ∧
    (∀ v, ((run range draws ops).1.get name).1 = some v →
      ∃ q, (run range draws ops).1._keyMap q = some v) :=
  get_some_of_inv (run range draws ops).1 name (run_inv range draws ops hwf)

/-- Concrete instantiation of `get_total_iff_points` after an add, a remove
and a weight-defaulted re-add. -/
theorem get_total_iff_points_witness :
    wfOps [Op.add "A" 2 (some [5, 500]), Op.remove ("A" : String),
      Op.add "B" 0 none] = true ∧
    ((((run none (fun _ => 3)
        [Op.add "A" 2 (some [5, 500]), Op.remove "A",
          Op.add "B" 0 none]).1.get [100]).1 = none
      ↔ (run none (fun _ => 3)
        [Op.add "A" 2 (some [5, 500]), Op.remove "A",
          Op.add "B" 0 none]).1.keyCount = 0) ∧
    (∀ v, ((run none (fun _ => 3)
        [Op.add "A" 2 (some [5, 500]), Op.remove "A",
          Op.add "B" 0 none]).1.get [100]).1 = some v →
      ∃ q, (run none (fun _ => 3)
        [Op.add "A" 2 (some [5, 500]), Op.remove "A",
          Op.add "B" 0 none]).1._keyMap q = some v)) :=
  ⟨by decide, get_total_iff_points none (fun _ => 3)
    [Op.add "A" 2 (some [5, 500]), Op.remove "A", Op.add "B" 0 none] [100] (by decide)⟩

end CHashModel
